import Mathlib

/-!
Verification development for the delta-CRDT causal-context substrate
(Dot, DotContext, DotKernel, delta helpers, MVReg).

Modelling conventions (shallow embedding of the JavaScript source):
  - A JS Map is an association list (List (key × value)) iterated in
    insertion order; Map.set updates in place or appends, Map.delete filters.
  - A JS Set of dot strings is a List Dot in insertion order without
    duplicates (adding an existing element is a no-op).
  - Dot strings "id:counter" are represented by the Dot structure; this is
    faithful for well-formed dots (non-empty id without a colon character,
    counter a non-negative integer), for which rendering is injective.
  - String.localeCompare is modelled as code-point order on strings, which
    agrees with it on the plain ASCII identifiers used throughout.
  - In-place mutation is modelled by returning the updated structure;
    methods that both mutate the receiver and return a delta return a pair.
  - Loops that are not structurally recursive (the compaction fixpoint and
    the two-pointer merges) take an explicit fuel argument; callers pass
    enough fuel and sufficiency is proved where a claim needs it.
-/

/-- Dot: a (replica id, logical counter) pair, the key type of the kernel
and of the causal context.  Source: class Dot (id, counter). -/
structure Dot where
  id : String
  counter : Nat
deriving DecidableEq, Repr

/-- Rendering of a dot as the wire string "id:counter".
Source: Dot.prototype.toString. -/
def Dot.toStr (d : Dot) : String :=
  d.id ++ ":" ++ toString d.counter

/-- Lexicographic code-point order on character lists: the order JS uses
for its string relational operators, and the order localeCompare yields on
the plain ASCII identifiers used throughout. -/
def charListLt : List Char → List Char → Bool
  | [], [] => false
  | [], _ :: _ => true
  | _ :: _, [] => false
  | a :: as, b :: bs =>
    if a < b then true else if b < a then false else charListLt as bs

/-- Strict string order as a computable Bool. -/
def strLt (a b : String) : Bool := charListLt a.toList b.toList

/-- Comparison used by Dot.compare: ids by localeCompare (modelled as
code-point order), then counters numerically.  dotCmpLt a b means
Dot.compare(a, b) < 0. -/
def dotCmpLt (a b : Dot) : Bool :=
  if a.id = b.id then decide (a.counter < b.counter) else strLt a.id b.id

/-- Non-strict version of dotCmpLt, used to sort arrays of dots the way
Array.prototype.sort(Dot.compare) does. -/
def dotCmpLe (a b : Dot) : Bool :=
  if a.id = b.id then decide (a.counter ≤ b.counter) else strLt a.id b.id

/-- Plain JS string comparison of two rendered dot strings; this is the
operator used (instead of Dot.compare) in one branch of DotKernel.join. -/
def dotStrLt (a b : Dot) : Bool :=
  strLt (Dot.toStr a) (Dot.toStr b)

/-- Boolean list membership via decidable equality. -/
def memB [DecidableEq α] (l : List α) (a : α) : Bool :=
  l.any (fun x => decide (x = a))

/-- Insertion into a JS Set modelled on lists: append unless present. -/
def setAdd [DecidableEq α] (l : List α) (a : α) : List α :=
  if memB l a then l else l ++ [a]

/-- Lookup in a JS Map modelled as an association list (first binding wins,
as keys are unique in an actual Map). -/
def alGet [DecidableEq κ] (l : List (κ × β)) (k : κ) : Option β :=
  (l.find? (fun p => decide (p.1 = k))).map (fun p => p.2)

/-- Map.set: replace the binding in place if the key is present, else
append the new binding. -/
def alSet [DecidableEq κ] (l : List (κ × β)) (k : κ) (v : β) : List (κ × β) :=
  if l.any (fun p => decide (p.1 = k)) then
    l.map (fun p => if p.1 = k then (k, v) else p)
  else l ++ [(k, v)]

/-- Map.delete: drop the binding for a key. -/
def alDelete [DecidableEq κ] (l : List (κ × β)) (k : κ) : List (κ × β) :=
  l.filter (fun p => decide (¬ p.1 = k))

/-- Keys of an association list, in insertion order. -/
def alKeys (l : List (κ × β)) : List κ :=
  l.map (fun p => p.1)

/-- Insertion of an element into a list sorted by the boolean relation le. -/
def insertSorted (le : α → α → Bool) (a : α) : List α → List α
  | [] => [a]
  | b :: bs => if le a b then a :: b :: bs else b :: insertSorted le a bs

/-- Sorting with a boolean comparison; models Array.prototype.sort with the
comparator Dot.compare (the arrays sorted in the source have no duplicate
elements, so any sorted arrangement is the one JS produces). -/
def sortByB (le : α → α → Bool) (l : List α) : List α :=
  l.foldr (insertSorted le) []

/-- DotContext: the causal context a replica has observed, split into the
compact causal context (an id to counter map) and the dot cloud.
Source: class DotContext. -/
structure DotContext where
  compactCausalContext : List (String × Nat)
  dotCloud : List Dot
deriving DecidableEq, Repr

/-- Context with no observed dots.  Source: new DotContext(). -/
def emptyCtx : DotContext := ⟨[], []⟩

/-- Membership test of a dot in a context: covered by the compact causal
context entry of its id, or present in the dot cloud.
Source: DotContext.dotIn. -/
def DotContext.dotIn (c : DotContext) (d : Dot) : Bool :=
  match alGet c.compactCausalContext d.id with
  | some cc => if d.counter ≤ cc then true else memB c.dotCloud d
  | none => memB c.dotCloud d

/-- One pass of the compaction loop: walk the dot cloud in order, absorbing
contiguous dots into the compact causal context and collecting dots to
delete; returns the updated ccc, the dots marked for deletion, and whether
any absorption happened (the compactedCloud flag).
Source: body of the do block in DotContext.compact. -/
def compactPass (ccc : List (String × Nat)) :
    List Dot → List (String × Nat) × List Dot × Bool
  | [] => (ccc, [], false)
  | d :: rest =>
    match alGet ccc d.id with
    | none =>
      if d.counter = 1 then
        let r := compactPass (alSet ccc d.id 1) rest
        (r.1, d :: r.2.1, true)
      else
        compactPass ccc rest
    | some k =>
      if d.counter = k + 1 then
        let r := compactPass (alSet ccc d.id (k + 1)) rest
        (r.1, d :: r.2.1, true)
      else if d.counter ≤ k then
        let r := compactPass ccc rest
        (r.1, d :: r.2.1, r.2.2)
      else
        compactPass ccc rest

/-- Iterate compaction passes to a fixpoint.  The source loop terminates
because the cloud strictly shrinks on every pass that makes progress; here
the iteration count is bounded by an explicit fuel argument, and callers
supply fuel exceeding the cloud size, which is proved sufficient. -/
def compactGo (ccc : List (String × Nat)) (cloud : List Dot) :
    Nat → List (String × Nat) × List Dot
  | 0 => (ccc, cloud)
  | fuel + 1 =>
    let r := compactPass ccc cloud
    let cloud' := cloud.filter (fun d => !(memB r.2.1 d))
    if r.2.2 then compactGo r.1 cloud' fuel else (r.1, cloud')

/-- Normalization of a context.  Source: DotContext.compact. -/
def DotContext.compact (c : DotContext) : DotContext :=
  let r := compactGo c.compactCausalContext c.dotCloud (c.dotCloud.length + 1)
  ⟨r.1, r.2⟩

/-- Allocation of the next dot for a replica id: bump the compact causal
context entry and return the new dot.  Returns the updated context together
with the dot.  Source: DotContext.makeDot. -/
def DotContext.makeDot (c : DotContext) (id : String) : DotContext × Dot :=
  let k := (alGet c.compactCausalContext id).getD 0
  (⟨alSet c.compactCausalContext id (k + 1), c.dotCloud⟩, ⟨id, k + 1⟩)

/-- Insertion of a dot into the cloud, optionally compacting.
Source: DotContext.insertDot. -/
def DotContext.insertDot (c : DotContext) (d : Dot) (compactNow : Bool) :
    DotContext :=
  let c' : DotContext := ⟨c.compactCausalContext, setAdd c.dotCloud d⟩
  if compactNow then c'.compact else c'

/-- Context join: take pointwise maxima of compact causal contexts, union
the dot clouds, then compact.  Models the call on two distinct context
objects (the self-join identity short-circuit is treated at use sites).
Source: DotContext.join. -/
def DotContext.join (c o : DotContext) : DotContext :=
  let ccc :=
    o.compactCausalContext.foldl
      (fun acc p =>
        match alGet acc p.1 with
        | none => alSet acc p.1 p.2
        | some cur => alSet acc p.1 (max cur p.2))
      c.compactCausalContext
  let dc := o.dotCloud.foldl setAdd c.dotCloud
  DotContext.compact ⟨ccc, dc⟩

/-- Deep copy of a context.  Source: DotContext.clone. -/
def DotContext.clone (c : DotContext) : DotContext :=
  ⟨c.compactCausalContext, c.dotCloud⟩

/-- DotKernel: a dot-to-value store paired with its causal context.  The
contextBase field of the source only matters for the ownership mode of
clone; the model covers kernels that own their context, for which clone
deep-copies everything.  Source: class DotKernel. -/
structure DotKernel (V : Type) where
  dataStorage : List (Dot × V)
  sharedContext : DotContext
deriving DecidableEq, Repr

/-- Kernel with no data and a fresh empty context.
Source: new DotKernel(). -/
def emptyKernel (V : Type) : DotKernel V := ⟨[], emptyCtx⟩

/-- Two-pointer walk over the sorted key arrays of the two kernels in
DotKernel.join, threading the receiver's dataStorage through the deletions
and insertions the loop performs.  The first branch compares the two dot
strings with the plain JS string operator (thisDot < otherDot) while the
second branch uses Dot.compare, exactly as in the source.  bstore is the
other kernel's dataStorage, which the loop only reads.  Fuel bounds the
iteration; callers pass the combined length of the two key arrays.
Source: the while loop of DotKernel.join. -/
def joinWalk (actx bctx : DotContext) (bstore : List (Dot × V)) :
    Nat → List Dot → List Dot → List (Dot × V) → List (Dot × V)
  | 0, _, _, s => s
  | _ + 1, [], [], s => s
  | fuel + 1, t :: ts, [], s =>
    joinWalk actx bctx bstore fuel ts []
      (if bctx.dotIn t then alDelete s t else s)
  | fuel + 1, [], o :: os, s =>
    joinWalk actx bctx bstore fuel [] os
      (if actx.dotIn o then s else
        match alGet bstore o with
        | some v => alSet s o v
        | none => s)
  | fuel + 1, t :: ts, o :: os, s =>
    if dotStrLt t o then
      joinWalk actx bctx bstore fuel ts (o :: os)
        (if bctx.dotIn t then alDelete s t else s)
    else if dotCmpLt o t then
      joinWalk actx bctx bstore fuel (t :: ts) os
        (if actx.dotIn o then s else
          match alGet bstore o with
          | some v => alSet s o v
          | none => s)
    else
      joinWalk actx bctx bstore fuel ts os s

/-- Causal observed-remove merge of another kernel into this one (the model
of a call on two distinct kernel objects with distinct context objects).
Source: DotKernel.join. -/
def DotKernel.join (k o : DotKernel V) : DotKernel V :=
  let thisDots := sortByB dotCmpLe (alKeys k.dataStorage)
  let otherDots := sortByB dotCmpLe (alKeys o.dataStorage)
  { dataStorage :=
      joinWalk k.sharedContext o.sharedContext o.dataStorage
        (thisDots.length + otherDots.length) thisDots otherDots k.dataStorage
    sharedContext := k.sharedContext.join o.sharedContext }

/-- Two-pointer walk of DotKernel.deepJoin.  Both ordering tests use the
plain JS string operator on dot strings; when the same dot is on both sides
and the stored values differ (JSON.stringify inequality, modelled by the
veq parameter), the payloads are merged with the delta-helpers join,
modelled by the total function pjoin (payloads are assumed joinable, as the
spec requires for deepJoin).  Source: the while loop of DotKernel.deepJoin. -/
def deepWalk (veq : V → V → Bool) (pjoin : V → V → V)
    (actx bctx : DotContext) (bstore : List (Dot × V)) :
    Nat → List Dot → List Dot → List (Dot × V) → List (Dot × V)
  | 0, _, _, s => s
  | _ + 1, [], [], s => s
  | fuel + 1, t :: ts, [], s =>
    deepWalk veq pjoin actx bctx bstore fuel ts []
      (if bctx.dotIn t then alDelete s t else s)
  | fuel + 1, [], o :: os, s =>
    deepWalk veq pjoin actx bctx bstore fuel [] os
      (if actx.dotIn o then s else
        match alGet bstore o with
        | some v => alSet s o v
        | none => s)
  | fuel + 1, t :: ts, o :: os, s =>
    if dotStrLt t o then
      deepWalk veq pjoin actx bctx bstore fuel ts (o :: os)
        (if bctx.dotIn t then alDelete s t else s)
    else if dotStrLt o t then
      deepWalk veq pjoin actx bctx bstore fuel (t :: ts) os
        (if actx.dotIn o then s else
          match alGet bstore o with
          | some v => alSet s o v
          | none => s)
    else
      deepWalk veq pjoin actx bctx bstore fuel ts os
        (match alGet s t, alGet bstore o with
         | some tv, some ov => if veq tv ov then s else alSet s t (pjoin tv ov)
         | _, _ => s)

/-- Deep merge of another kernel into this one.  Source: DotKernel.deepJoin. -/
def DotKernel.deepJoin (veq : V → V → Bool) (pjoin : V → V → V)
    (k o : DotKernel V) : DotKernel V :=
  let thisDots := sortByB dotCmpLe (alKeys k.dataStorage)
  let otherDots := sortByB dotCmpLe (alKeys o.dataStorage)
  { dataStorage :=
      deepWalk veq pjoin k.sharedContext o.sharedContext o.dataStorage
        (thisDots.length + otherDots.length) thisDots otherDots k.dataStorage
    sharedContext := k.sharedContext.join o.sharedContext }

/-- Local write: allocate a fresh dot from the shared context, store the
value, and return the mutated kernel together with the delta kernel that
carries exactly the new dot.  Source: DotKernel.add. -/
def DotKernel.add (k : DotKernel V) (id : String) (v : V) :
    DotKernel V × DotKernel V :=
  let m := k.sharedContext.makeDot id
  let self : DotKernel V := ⟨alSet k.dataStorage m.2 v, m.1⟩
  let delta : DotKernel V := ⟨[(m.2, v)], emptyCtx.insertDot m.2 true⟩
  (self, delta)

/-- Local write returning only the fresh dot.  Source: DotKernel.dotAdd. -/
def DotKernel.dotAdd (k : DotKernel V) (id : String) (v : V) :
    DotKernel V × Dot :=
  let m := k.sharedContext.makeDot id
  (⟨alSet k.dataStorage m.2 v, m.1⟩, m.2)

/-- Removal of every dot (the null-selector branch of rmv): clear the
storage, and return the delta whose context absorbs every removed dot.
Source: DotKernel.rmv, val === null branch. -/
def DotKernel.rmvAll (k : DotKernel V) : DotKernel V × DotKernel V :=
  let dctx := DotContext.compact ⟨[], (alKeys k.dataStorage).foldl setAdd []⟩
  (⟨[], k.sharedContext⟩, ⟨[], dctx⟩)

/-- Removal of a single dot (the dot-like selector branch of rmv).  The
argument is the storage key the rendered selector string denotes; none
models a selector whose rendered string can match no well-formed key.
Source: DotKernel.rmv, Dot.isDotLikeObject branch. -/
def DotKernel.rmvDot (k : DotKernel V) (sel : Option Dot) :
    DotKernel V × DotKernel V :=
  match sel with
  | some d =>
    if memB (alKeys k.dataStorage) d then
      (⟨alDelete k.dataStorage d, k.sharedContext⟩,
       ⟨[], DotContext.compact ⟨[], [d]⟩⟩)
    else
      (k, ⟨[], DotContext.compact emptyCtx⟩)
  | none => (k, ⟨[], DotContext.compact emptyCtx⟩)

/-- Removal by structural value equality (the final branch of rmv); veq
models equality of JSON.stringify images.  Source: DotKernel.rmv, value
branch. -/
def DotKernel.rmvVal (veq : V → V → Bool) (k : DotKernel V) (v : V) :
    DotKernel V × DotKernel V :=
  let victims := (k.dataStorage.filter (fun p => veq p.2 v)).map (fun p => p.1)
  (⟨k.dataStorage.filter (fun p => !(veq p.2 v)), k.sharedContext⟩,
   ⟨[], DotContext.compact ⟨[], victims.foldl setAdd []⟩⟩)

/-- Clone of a kernel that owns its context: a deep copy.
Source: DotKernel.clone, own-context case. -/
def DotKernel.clone (k : DotKernel V) : DotKernel V :=
  ⟨k.dataStorage, k.sharedContext.clone⟩

/-- Multi-value register over a dot kernel.  Source: class MVReg. -/
structure MVReg (V : Type) where
  dotKernel : DotKernel V
  id : String
deriving Repr

/-- Register merge delegates to the kernel merge.  Source: MVReg.join. -/
def MVReg.join (r o : MVReg V) : MVReg V :=
  ⟨r.dotKernel.join o.dotKernel, r.id⟩

/-- Register write: remove every dot of the own kernel, add the new value
under a fresh dot, and return the mutated register together with the delta
that merges the removal and addition deltas.  Source: MVReg.write. -/
def MVReg.write (r : MVReg V) (v : V) : MVReg V × MVReg V :=
  let rm := r.dotKernel.rmvAll
  let ad := rm.1.add r.id v
  let delta : MVReg V := MVReg.join ⟨rm.2, ""⟩ ⟨ad.2, ""⟩
  (⟨ad.1, r.id⟩, delta)

/-- Register read: the set of stored values, built in iteration order.
Source: MVReg.read. -/
def MVReg.read [DecidableEq V] (r : MVReg V) : List V :=
  r.dotKernel.dataStorage.foldl (fun s p => setAdd s p.2) []

/-- Values the delta-helpers join can receive: a JS number (modelled as an
integer), null, an object exposing a join method (its mutable state of type
V, updated by the fixed method f given to deltaJoin), or any other object
without a join method. -/
inductive DVal (V : Type) where
  | num (n : Int)
  | nullV
  | joinObj (state : V)
  | plain (p : V)
deriving DecidableEq, Repr

/-- Truthiness of a DVal under JS coercion: 0 and null are falsy, every
object is truthy. -/
def DVal.truthy : DVal V → Bool
  | .num n => decide (n ≠ 0)
  | .nullV => false
  | .joinObj _ => true
  | .plain _ => true

/-- Whether the value exposes a join method. -/
def DVal.hasJoinMethod : DVal V → Bool
  | .joinObj _ => true
  | _ => false

/-- DeltaHelpers.join: numbers join by max; a truthy left value exposing a
join method is copied (same prototype, hence the same constructor and
method) and the copy joins the right value through the method f; everything
else throws.  Source: function join in delta-helpers. -/
def deltaJoin (f : V → DVal V → V) (a b : DVal V) : Except Unit (DVal V) :=
  match a, b with
  | .num n, .num m => .ok (.num (max n m))
  | a, b =>
    if a.truthy && a.hasJoinMethod then
      match a with
      | .joinObj s => .ok (.joinObj (f s b))
      | _ => .error ()
    else .error ()

/-- Value of a list of decimal digits. -/
def digitsVal (l : List Char) : Nat :=
  l.foldl (fun a c => a * 10 + (c.toNat - '0'.toNat)) 0

/-- Atomic JSON values appearing as object fields. -/
inductive JAtom where
  | str (s : String)
  | num (n : Int)
  | nullA
deriving DecidableEq, Repr

/-- JSON-style values, used to model rmv selectors and payloads: strings,
numbers, null, and one level of objects as ordered field lists (dot-like
selectors and the payloads structurally equal to them have this shape). -/
inductive JVal where
  | str (s : String)
  | num (n : Int)
  | nullJ
  | obj (fields : List (String × JAtom))
deriving DecidableEq, Repr

/-- Field lookup on an object field list (first binding, as in JS property
tables with unique keys). -/
def JVal.field (fs : List (String × JAtom)) (k : String) : Option JAtom :=
  alGet fs k

/-- Dot.isDotLikeObject: a non-null object whose id and counter properties
are both defined.  Strings and numbers have typeof different from object,
and null is excluded explicitly.  Source: Dot.isDotLikeObject. -/
def isDotLikeObject : JVal → Bool
  | .obj fs => (JVal.field fs "id").isSome && (JVal.field fs "counter").isSome
  | _ => false

/-- JS string coercion of an atomic field value, as the template literal in
Dot.prototype.toString applies it: strings pass through, numbers render in
decimal, null renders as the word null. -/
def renderAtom : JAtom → String
  | .str s => s
  | .num n => toString n
  | .nullA => "null"

/-- Whether a character list is the canonical decimal rendering of a
natural number: non-empty, digits only, and no leading zero unless the
number is exactly 0.  Well-formed storage keys render their counters this
way, so only such counter parts can match one. -/
def canonNatDigits : List Char → Bool
  | [] => false
  | c :: cs => (c :: cs).all Char.isDigit && (decide (c ≠ '0') || decide (cs = []))

/-- Storage key denoted by the rendered dot string of a dot-like selector.
The source builds the string id-coerced ++ ":" ++ counter-coerced and
deletes that key, so a selector matches the well-formed storage key
(i, c) exactly when its rendered id part is i (non-empty, colon-free) and
its rendered counter part is the canonical decimal rendering of c — this
includes numeric or null id fields and numeral-string counter fields such
as (id: 5, counter: 2) matching the key 5:2 or (id: b, counter: "2")
matching b:2.  none means the rendered string is the rendering of no
well-formed storage key (extra colons, empty id, or a counter part that is
not canonical decimal), so nothing well-formed is deleted. -/
def jvalDotKey : JVal → Option Dot
  | .obj fs =>
    match JVal.field fs "id", JVal.field fs "counter" with
    | some ia, some ca =>
      let ridc := (renderAtom ia).toList
      let rcnt := (renderAtom ca).toList
      if !ridc.isEmpty && !(memB ridc ':') && !(memB rcnt ':') &&
          canonNatDigits rcnt then
        some ⟨String.mk ridc, digitsVal rcnt⟩
      else none
    | _, _ => none
  | _ => none

/-- Names used when a claim needs the selector with string id and numeric
counter fields only. -/
def dotLikeSel (i : String) (n : Int) : JVal :=
  JVal.obj [("id", JAtom.str i), ("counter", JAtom.num n)]

/-- Structural equality of JSON encodings for JVal payloads (field order
matters for JSON.stringify, and it is preserved by the ordered field
lists). -/
def jvalEq (a b : JVal) : Bool := decide (a = b)

/-- Selector dispatch of DotKernel.rmv on JVal selectors: null removes all,
a dot-like object removes the single dot its rendered string denotes, and
anything else removes by structural value equality.  Source: DotKernel.rmv. -/
def DotKernel.rmvSel (k : DotKernel JVal) (sel : Option JVal) :
    DotKernel JVal × DotKernel JVal :=
  match sel with
  | none => k.rmvAll
  | some v =>
    if isDotLikeObject v then k.rmvDot (jvalDotKey v)
    else DotKernel.rmvVal jvalEq k v

/-- Frame-aware model of A.join(B) for two distinct kernel objects whose
context objects may be the same JS object (aliased = true, under which the
trailing context self-join short-circuits on the identity check) or
distinct (aliased = false, under which only the receiver's context object
is mutated).  Returns the post-states of both kernels.
Source: DotKernel.join together with DotContext.join. -/
def kernelJoinH (a b : DotKernel V) (aliased : Bool) :
    DotKernel V × DotKernel V :=
  let thisDots := sortByB dotCmpLe (alKeys a.dataStorage)
  let otherDots := sortByB dotCmpLe (alKeys b.dataStorage)
  let s :=
    joinWalk a.sharedContext b.sharedContext b.dataStorage
      (thisDots.length + otherDots.length) thisDots otherDots a.dataStorage
  let actx :=
    if aliased then a.sharedContext
    else a.sharedContext.join b.sharedContext
  (⟨s, actx⟩, ⟨b.dataStorage, if aliased then actx else b.sharedContext⟩)

/-- Frame-aware model of A.deepJoin(B), as kernelJoinH.
Source: DotKernel.deepJoin together with DotContext.join. -/
def kernelDeepJoinH (veq : V → V → Bool) (pjoin : V → V → V)
    (a b : DotKernel V) (aliased : Bool) : DotKernel V × DotKernel V :=
  let thisDots := sortByB dotCmpLe (alKeys a.dataStorage)
  let otherDots := sortByB dotCmpLe (alKeys b.dataStorage)
  let s :=
    deepWalk veq pjoin a.sharedContext b.sharedContext b.dataStorage
      (thisDots.length + otherDots.length) thisDots otherDots a.dataStorage
  let actx :=
    if aliased then a.sharedContext
    else a.sharedContext.join b.sharedContext
  (⟨s, actx⟩, ⟨b.dataStorage, if aliased then actx else b.sharedContext⟩)

/-- Anchoring invariant of a kernel as a decidable check: every key of
dataStorage is a member of sharedContext. -/
def anchoredB (k : DotKernel V) : Bool :=
  (alKeys k.dataStorage).all (fun d => k.sharedContext.dotIn d)

/-- Public kernel operations, for stating invariant preservation over
arbitrary operation sequences.  The join and deepJoin operations carry the
argument kernel; rmv appears in its three selector modes. -/
inductive KOp (V : Type) where
  | add (id : String) (v : V)
  | dotAdd (id : String) (v : V)
  | rmvAll
  | rmvDot (sel : Option Dot)
  | rmvVal (v : V)
  | join (o : DotKernel V)
  | deepJoin (o : DotKernel V)
  | clone

/-- Effect of one public operation on the kernel it is invoked on (the
deltas and returned dots do not affect the receiver). -/
def applyOp (veq : V → V → Bool) (pjoin : V → V → V)
    (k : DotKernel V) : KOp V → DotKernel V
  | .add id v => (k.add id v).1
  | .dotAdd id v => (k.dotAdd id v).1
  | .rmvAll => k.rmvAll.1
  | .rmvDot sel => (k.rmvDot sel).1
  | .rmvVal v => (DotKernel.rmvVal veq k v).1
  | .join o => k.join o
  | .deepJoin o => DotKernel.deepJoin veq pjoin k o
  | .clone => k.clone

/-- Well-formedness of an operation: kernels given to join and deepJoin
are themselves anchored (as every kernel maintained through this API is). -/
def opWFB (op : KOp V) : Bool :=
  match op with
  | .join o => anchoredB o
  | .deepJoin o => anchoredB o
  | _ => true

/-- Effect of a sequence of public operations. -/
def applyOps (veq : V → V → Bool) (pjoin : V → V → V)
    (k : DotKernel V) (ops : List (KOp V)) : DotKernel V :=
  ops.foldl (applyOp veq pjoin) k

/-- Dot as produced by the parser, whose counter may be any integer that
parseInt returns. -/
structure PDot where
  id : String
  counter : Int
deriving DecidableEq, Repr

/-- String.prototype.split with the single-character separator ':',
producing the list of (possibly empty) segments. -/
def splitColonChars : List Char → List (List Char)
  | [] => [[]]
  | c :: cs =>
    let r := splitColonChars cs
    if c = ':' then [] :: r
    else
      match r with
      | [] => [[c]]
      | h :: t => (c :: h) :: t

/-- Whitespace skipped by parseInt (the common ASCII whitespace forms). -/
def isJsSpace (c : Char) : Bool :=
  c = ' ' || c = '\t' || c = '\n' || c = '\r'

/-- Value of a list of hexadecimal digits. -/
def hexVal (l : List Char) : Nat :=
  l.foldl
    (fun a c =>
      a * 16 +
        (if c.isDigit then c.toNat - '0'.toNat
         else if 'a' ≤ c ∧ c ≤ 'f' then c.toNat - 'a'.toNat + 10
         else c.toNat - 'A'.toNat + 10))
    0

/-- Hexadecimal digit test. -/
def isHexDigit (c : Char) : Bool :=
  c.isDigit || ('a' ≤ c && c ≤ 'f') || ('A' ≤ c && c ≤ 'F')

/-- JS parseInt with no radix argument: skip leading whitespace, read an
optional sign, accept a 0x or 0X prefix for hexadecimal, then take the
longest prefix of digits; none models NaN (no digit found). -/
def jsParseInt (cs : List Char) : Option Int :=
  let cs1 := cs.dropWhile isJsSpace
  let neg : Bool :=
    match cs1 with
    | c :: _ => decide (c = '-')
    | [] => false
  let body : List Char :=
    match cs1 with
    | c :: r => if c = '+' ∨ c = '-' then r else cs1
    | [] => []
  let hex : Bool :=
    match body with
    | c0 :: c1 :: _ => decide (c0 = '0') && (decide (c1 = 'x') || decide (c1 = 'X'))
    | _ => false
  if hex then
    let hs := (body.drop 2).takeWhile isHexDigit
    if hs.isEmpty then none
    else some (if neg then -(hexVal hs : Int) else (hexVal hs : Int))
  else
    let ds := body.takeWhile Char.isDigit
    if ds.isEmpty then none
    else some (if neg then -(digitsVal ds : Int) else (digitsVal ds : Int))

/-- Dot.fromString: split on ':', require exactly two parts, parse the
counter with parseInt, and reject when the counter is NaN or the id part is
empty (the falsy-string test).  Source: Dot.fromString. -/
def dotFromString (s : String) : Except Unit PDot :=
  match splitColonChars s.toList with
  | [idc, csc] =>
    match jsParseInt csc with
    | none => .error ()
    | some n =>
      if idc.isEmpty then .error () else .ok ⟨String.mk idc, n⟩
  | _ => .error ()

/-- Modelled from the spec: the shape "id:integer" the specification says
the parser accepts — a non-empty id containing no colon, one colon, and
then nothing but the decimal digits of an integer. -/
def specDotForm (s : String) : Bool :=
  match splitColonChars s.toList with
  | [idc, csc] => !idc.isEmpty && !csc.isEmpty && csc.all Char.isDigit
  | _ => false

/-- Condition under which the implemented parser succeeds: exactly one
colon, a non-empty id part, and a counter part in which parseInt finds an
integer. -/
def jsDotAccepts (s : String) : Bool :=
  match splitColonChars s.toList with
  | [idc, csc] => !idc.isEmpty && (jsParseInt csc).isSome
  | _ => false

/-- Concrete kernel holding the single well-formed dot a:2 with value x,
whose context holds exactly that dot (in the cloud). -/
def kcA : DotKernel String := ⟨[(⟨"a", 2⟩, "x")], ⟨[], [⟨"a", 2⟩]⟩⟩

/-- Concrete kernel holding the single well-formed dot a:10 with value y,
whose context holds exactly that dot (in the cloud). -/
def kcB : DotKernel String := ⟨[(⟨"a", 10⟩, "y")], ⟨[], [⟨"a", 10⟩]⟩⟩

/-- Context reached through the public API by inserting the out-of-order
dot a:2 into an empty context (the default, compacting insertDot). -/
def ctxC3 : DotContext := emptyCtx.insertDot ⟨"a", 2⟩ true

/-- State of ctxC3 after one makeDot for replica a, which returns a:1. -/
def ctxC3' : DotContext := (ctxC3.makeDot "a").1

/-- Pointwise domination between compact causal contexts: every entry of
the first is present in the second with an equal or larger counter. -/
def cccLE (c1 c2 : List (String × Nat)) : Prop :=
  ∀ id k, alGet c1 id = some k → ∃ k2, alGet c2 id = some k2 ∧ k ≤ k2

theorem memB_iff [DecidableEq α] {l : List α} {a : α} :
    memB l a = true ↔ a ∈ l := by
  simp [memB, List.any_eq_true]

theorem mem_setAdd [DecidableEq α] {l : List α} {a b : α} :
    b ∈ setAdd l a ↔ b ∈ l ∨ b = a := by
  by_cases h : memB l a = true
  · simp only [setAdd, h, if_pos]
    constructor
    · exact Or.inl
    · rintro (hb | rfl)
      · exact hb
      · exact memB_iff.mp h
  · simp only [setAdd, h]
    simp [or_comm]

theorem alGet_alSet_self [DecidableEq κ] (l : List (κ × β)) (k : κ) (v : β) :
    alGet (alSet l k v) k = some v := by
  by_cases h : l.any (fun p => decide (p.1 = k)) = true
  · simp only [alSet, h, if_pos]
    induction l with
    | nil => simp at h
    | cons p t ih =>
      by_cases hp : p.1 = k
      · simp [alGet, hp]
      · simp only [List.any_cons, Bool.or_eq_true, decide_eq_true_eq] at h
        rcases h with h | h
        · exact absurd h hp
        · simpa [alGet, hp] using ih (by simpa [List.any_eq_true] using h)
  · simp only [alSet, h]
    induction l with
    | nil => simp [alGet]
    | cons p t ih =>
      simp only [List.any_cons, Bool.or_eq_true, decide_eq_true_eq,
        not_or] at h
      simpa [alGet, h.1] using ih (by simpa [List.any_eq_true] using h.2)

theorem alGet_cons_hit [DecidableEq κ] (p : κ × β) (t : List (κ × β))
    (k : κ) (h : p.1 = k) : alGet (p :: t) k = some p.2 := by
  simp [alGet, List.find?_cons, h]

theorem alGet_cons_miss [DecidableEq κ] (p : κ × β) (t : List (κ × β))
    (k : κ) (h : ¬ p.1 = k) : alGet (p :: t) k = alGet t k := by
  simp [alGet, List.find?_cons, h]

theorem alGet_map_update_ne [DecidableEq κ] (l : List (κ × β)) (k k' : κ)
    (v : β) (h : k' ≠ k) :
    alGet (l.map (fun p => if p.1 = k then (k, v) else p)) k' = alGet l k' := by
  induction l with
  | nil => simp
  | cons p t ih =>
    simp only [List.map_cons]
    by_cases hp : p.1 = k
    · rw [if_pos hp, alGet_cons_miss _ _ _ (by simpa using Ne.symm h),
        alGet_cons_miss _ _ _ (by rw [hp]; exact Ne.symm h)]
      exact ih
    · rw [if_neg hp]
      by_cases hp' : p.1 = k'
      · rw [alGet_cons_hit _ _ _ hp', alGet_cons_hit _ _ _ hp']
      · rw [alGet_cons_miss _ _ _ hp', alGet_cons_miss _ _ _ hp']
        exact ih

theorem alGet_append_single_ne [DecidableEq κ] (l : List (κ × β))
    (k k' : κ) (v : β) (h : k' ≠ k) :
    alGet (l ++ [(k, v)]) k' = alGet l k' := by
  induction l with
  | nil => simp [alGet, Ne.symm h]
  | cons p t ih =>
    rw [List.cons_append]
    by_cases hp' : p.1 = k'
    · rw [alGet_cons_hit _ _ _ hp', alGet_cons_hit _ _ _ hp']
    · rw [alGet_cons_miss _ _ _ hp', alGet_cons_miss _ _ _ hp']
      exact ih

theorem alGet_alSet_ne [DecidableEq κ] (l : List (κ × β)) (k k' : κ)
    (v : β) (h : k' ≠ k) : alGet (alSet l k v) k' = alGet l k' := by
  unfold alSet
  by_cases ha : l.any (fun p => decide (p.1 = k)) = true
  · rw [if_pos ha]
    exact alGet_map_update_ne l k k' v h
  · rw [if_neg ha]
    exact alGet_append_single_ne l k k' v h

theorem alGet_mem [DecidableEq κ] {l : List (κ × β)} {k : κ} {v : β}
    (h : alGet l k = some v) : (k, v) ∈ l := by
  unfold alGet at h
  cases hf : l.find? (fun p => decide (p.1 = k)) with
  | none => simp [hf] at h
  | some p =>
    have hm := List.mem_of_find?_eq_some hf
    have hp := List.find?_some hf
    simp only [decide_eq_true_eq] at hp
    simp only [hf, Option.map_some] at h
    obtain ⟨rfl⟩ : p = (k, v) := by
      cases p with
      | mk a b =>
        cases h
        cases hp
        rfl
    exact hm

theorem mem_alKeys {l : List (κ × β)} {k : κ} :
    k ∈ alKeys l ↔ ∃ v, (k, v) ∈ l := by
  simp only [alKeys, List.mem_map]
  constructor
  · rintro ⟨⟨a, b⟩, hm, rfl⟩
    exact ⟨b, hm⟩
  · rintro ⟨v, hv⟩
    exact ⟨(k, v), hv, rfl⟩

theorem alKeys_alDelete_subset [DecidableEq κ] {l : List (κ × β)} {k k' : κ}
    (h : k' ∈ alKeys (alDelete l k)) : k' ∈ alKeys l := by
  rcases mem_alKeys.mp h with ⟨v, hv⟩
  exact mem_alKeys.mpr ⟨v, (List.mem_filter.mp hv).1⟩

theorem alKeys_alSet [DecidableEq κ] {l : List (κ × β)} {k k' : κ} {v : β}
    (h : k' ∈ alKeys (alSet l k v)) : k' ∈ alKeys l ∨ k' = k := by
  by_cases ha : l.any (fun p => decide (p.1 = k)) = true
  · rw [alSet, if_pos ha] at h
    rcases mem_alKeys.mp h with ⟨w, hw⟩
    rcases List.mem_map.mp hw with ⟨p, hp, he⟩
    by_cases hk : p.1 = k
    · rw [if_pos hk] at he
      right
      exact (congrArg Prod.fst he).symm
    · rw [if_neg hk] at he
      left
      exact mem_alKeys.mpr ⟨w, he ▸ hp⟩
  · rw [alSet, if_neg ha] at h
    rcases mem_alKeys.mp h with ⟨w, hw⟩
    rcases List.mem_append.mp hw with hw | hw
    · exact Or.inl (mem_alKeys.mpr ⟨w, hw⟩)
    · right
      simp at hw
      exact hw.1

theorem mem_insertSorted {le : α → α → Bool} {l : List α} {a b : α} :
    b ∈ insertSorted le a l ↔ b = a ∨ b ∈ l := by
  induction l with
  | nil => simp [insertSorted]
  | cons c t ih =>
    by_cases h : le a c = true
    · simp [insertSorted, h]
    · simp only [insertSorted, h, Bool.false_eq_true, if_false,
        List.mem_cons, ih]
      tauto

theorem mem_sortByB {le : α → α → Bool} {l : List α} {a : α} :
    a ∈ sortByB le l ↔ a ∈ l := by
  induction l with
  | nil => simp [sortByB]
  | cons c t ih =>
    simp only [sortByB, List.foldr_cons] at ih ⊢
    rw [mem_insertSorted, ih, List.mem_cons]

theorem cccLE_refl (c : List (String × Nat)) : cccLE c c :=
  fun _ k h => ⟨k, h, le_refl k⟩

theorem cccLE_trans {a b c : List (String × Nat)}
    (h1 : cccLE a b) (h2 : cccLE b c) : cccLE a c := by
  intro id k hk
  rcases h1 id k hk with ⟨k1, hk1, hle1⟩
  rcases h2 id k1 hk1 with ⟨k2, hk2, hle2⟩
  exact ⟨k2, hk2, le_trans hle1 hle2⟩

theorem cccLE_alSet_none {c : List (String × Nat)} {id : String}
    (v : Nat) (h : alGet c id = none) : cccLE c (alSet c id v) := by
  intro id' k hk
  by_cases he : id' = id
  · rw [he, h] at hk
    exact absurd hk (by simp)
  · exact ⟨k, by rw [alGet_alSet_ne c id id' v he]; exact hk, le_refl k⟩

theorem cccLE_alSet_ge {c : List (String × Nat)} {id : String} {k0 : Nat}
    (v : Nat) (h : alGet c id = some k0) (hle : k0 ≤ v) :
    cccLE c (alSet c id v) := by
  intro id' k hk
  by_cases he : id' = id
  · subst he
    rw [h] at hk
    cases hk
    exact ⟨v, alGet_alSet_self c id' v, hle⟩
  · exact ⟨k, by rw [alGet_alSet_ne c id id' v he]; exact hk, le_refl k⟩

theorem compactPass_ccc_mono :
    ∀ (cloud : List Dot) (ccc : List (String × Nat)),
      cccLE ccc (compactPass ccc cloud).1 := by
  intro cloud
  induction cloud with
  | nil => intro ccc; exact cccLE_refl ccc
  | cons d rest ih =>
    intro ccc
    cases hg : alGet ccc d.id with
    | none =>
      by_cases h1 : d.counter = 1
      · simp only [compactPass, hg, h1, if_pos]
        exact cccLE_trans (cccLE_alSet_none 1 hg) (ih (alSet ccc d.id 1))
      · simp only [compactPass, hg, h1, if_neg, Bool.false_eq_true]
        exact ih ccc
    | some k =>
      by_cases h1 : d.counter = k + 1
      · simp only [compactPass, hg, h1, if_pos]
        exact cccLE_trans (cccLE_alSet_ge (k + 1) hg (Nat.le_succ k))
          (ih (alSet ccc d.id (k + 1)))
      · by_cases h2 : d.counter ≤ k
        · simp only [compactPass, hg, h1, h2, if_neg, if_pos,
            Bool.false_eq_true]
          exact ih ccc
        · simp only [compactPass, hg, h1, h2, if_neg, Bool.false_eq_true]
          exact ih ccc

theorem compactPass_del_covered :
    ∀ (cloud : List Dot) (ccc : List (String × Nat)) (d : Dot),
      d ∈ (compactPass ccc cloud).2.1 →
      ∃ k, alGet (compactPass ccc cloud).1 d.id = some k ∧ d.counter ≤ k := by
  intro cloud
  induction cloud with
  | nil => intro ccc d h; exact absurd h (by simp [compactPass])
  | cons d0 rest ih =>
    intro ccc d h
    cases hg : alGet ccc d0.id with
    | none =>
      by_cases h1 : d0.counter = 1
      · simp only [compactPass, hg, h1, if_pos] at h ⊢
        rcases List.mem_cons.mp h with rfl | h
        · rcases compactPass_ccc_mono rest (alSet ccc d.id 1) d.id 1
            (alGet_alSet_self ccc d.id 1) with ⟨k2, hk2, hle⟩
          exact ⟨k2, hk2, by omega⟩
        · exact ih (alSet ccc d0.id 1) d h
      · simp only [compactPass, hg, h1, if_neg, Bool.false_eq_true] at h ⊢
        exact ih ccc d h
    | some k =>
      by_cases h1 : d0.counter = k + 1
      · simp only [compactPass, hg, h1, if_pos] at h ⊢
        rcases List.mem_cons.mp h with rfl | h
        · rcases compactPass_ccc_mono rest (alSet ccc d.id (k + 1)) d.id
            (k + 1) (alGet_alSet_self ccc d.id (k + 1)) with ⟨k2, hk2, hle⟩
          exact ⟨k2, hk2, by omega⟩
        · exact ih (alSet ccc d0.id (k + 1)) d h
      · by_cases h2 : d0.counter ≤ k
        · simp only [compactPass, hg, h1, h2, if_neg, if_pos,
            Bool.false_eq_true] at h ⊢
          rcases List.mem_cons.mp h with rfl | h
          · rcases compactPass_ccc_mono rest ccc d.id k hg with ⟨k2, hk2, hle⟩
            exact ⟨k2, hk2, by omega⟩
          · exact ih ccc d h
        · simp only [compactPass, hg, h1, h2, if_neg, Bool.false_eq_true]
            at h ⊢
          exact ih ccc d h

theorem compactPass_noprogress :
    ∀ (cloud : List Dot) (ccc : List (String × Nat)),
      (compactPass ccc cloud).2.2 = false →
      (compactPass ccc cloud).1 = ccc ∧
      ∀ d ∈ cloud, d ∉ (compactPass ccc cloud).2.1 →
        (match alGet ccc d.id with
         | none => d.counter ≠ 1
         | some k => k + 1 < d.counter) := by
  intro cloud
  induction cloud with
  | nil =>
    intro ccc _
    exact ⟨rfl, by simp⟩
  | cons d0 rest ih =>
    intro ccc hfl
    cases hg : alGet ccc d0.id with
    | none =>
      by_cases h1 : d0.counter = 1
      · simp only [compactPass, hg, h1, if_pos] at hfl
        exact absurd hfl (by simp)
      · simp only [compactPass, hg, h1, if_neg, Bool.false_eq_true]
          at hfl ⊢
        rcases ih ccc hfl with ⟨hc, hrest⟩
        refine ⟨hc, ?_⟩
        intro d hd hnd
        rcases List.mem_cons.mp hd with rfl | hd
        · rw [hg]
          exact h1
        · exact hrest d hd hnd
    | some k =>
      by_cases h1 : d0.counter = k + 1
      · simp only [compactPass, hg, h1, if_pos] at hfl
        exact absurd hfl (by simp)
      · by_cases h2 : d0.counter ≤ k
        · simp only [compactPass, hg, h1, h2, if_neg, if_pos,
            Bool.false_eq_true] at hfl ⊢
          rcases ih ccc hfl with ⟨hc, hrest⟩
          refine ⟨hc, ?_⟩
          intro d hd hnd
          rcases List.mem_cons.mp hd with rfl | hd
          · exact absurd (List.mem_cons_self d _) hnd
          · exact hrest d hd (fun hm => hnd (List.mem_cons_of_mem d0 hm))
        · simp only [compactPass, hg, h1, h2, if_neg, Bool.false_eq_true]
            at hfl ⊢
          rcases ih ccc hfl with ⟨hc, hrest⟩
          refine ⟨hc, ?_⟩
          intro d hd hnd
          rcases List.mem_cons.mp hd with rfl | hd
          · rw [hg]
            omega
          · exact hrest d hd hnd

theorem compactPass_flag_mem :
    ∀ (cloud : List Dot) (ccc : List (String × Nat)),
      (compactPass ccc cloud).2.2 = true →
      ∃ d ∈ cloud, d ∈ (compactPass ccc cloud).2.1 := by
  intro cloud
  induction cloud with
  | nil => intro ccc h; exact absurd h (by simp [compactPass])
  | cons d0 rest ih =>
    intro ccc hfl
    cases hg : alGet ccc d0.id with
    | none =>
      by_cases h1 : d0.counter = 1
      · simp only [compactPass, hg, h1, if_pos]
        exact ⟨d0, List.mem_cons_self d0 rest, List.mem_cons_self d0 _⟩
      · simp only [compactPass, hg, h1, if_neg, Bool.false_eq_true]
          at hfl ⊢
        rcases ih ccc hfl with ⟨d, hd, hdel⟩
        exact ⟨d, List.mem_cons_of_mem d0 hd, hdel⟩
    | some k =>
      by_cases h1 : d0.counter = k + 1
      · simp only [compactPass, hg, h1, if_pos]
        exact ⟨d0, List.mem_cons_self d0 rest, List.mem_cons_self d0 _⟩
      · by_cases h2 : d0.counter ≤ k
        · simp only [compactPass, hg, h1, h2, if_neg, if_pos,
            Bool.false_eq_true] at hfl ⊢
          rcases ih ccc hfl with ⟨d, hd, hdel⟩
          exact ⟨d, List.mem_cons_of_mem d0 hd, List.mem_cons_of_mem d0 hdel⟩
        · simp only [compactPass, hg, h1, h2, if_neg, Bool.false_eq_true]
            at hfl ⊢
          rcases ih ccc hfl with ⟨d, hd, hdel⟩
          exact ⟨d, List.mem_cons_of_mem d0 hd, hdel⟩

theorem compactPass_shrink (cloud : List Dot) (ccc : List (String × Nat))
    (h : (compactPass ccc cloud).2.2 = true) :
    (cloud.filter (fun d => !(memB (compactPass ccc cloud).2.1 d))).length <
      cloud.length := by
  rcases compactPass_flag_mem cloud ccc h with ⟨d, hd, hdel⟩
  refine List.length_filter_lt_length_iff_exists.mpr ⟨d, hd, ?_⟩
  simp [memB_iff.mpr hdel]

theorem dotIn_of_ccc {c : DotContext} {d : Dot} {k : Nat}
    (h : alGet c.compactCausalContext d.id = some k) (hc : d.counter ≤ k) :
    c.dotIn d = true := by
  simp [DotContext.dotIn, h, hc]

theorem dotIn_of_cloud {c : DotContext} {d : Dot}
    (h : memB c.dotCloud d = true) : c.dotIn d = true := by
  unfold DotContext.dotIn
  cases alGet c.compactCausalContext d.id with
  | none => exact h
  | some cc =>
    by_cases hc : d.counter ≤ cc
    · simp [hc]
    · simp [hc, h]

theorem dotIn_step_mono {ccc : List (String × Nat)} {cloud : List Dot}
    {d : Dot} (h : DotContext.dotIn ⟨ccc, cloud⟩ d = true) :
    DotContext.dotIn
      ⟨(compactPass ccc cloud).1,
       cloud.filter (fun x => !(memB (compactPass ccc cloud).2.1 x))⟩
      d = true := by
  have hcloud : memB cloud d = true → DotContext.dotIn
      ⟨(compactPass ccc cloud).1,
       cloud.filter (fun x => !(memB (compactPass ccc cloud).2.1 x))⟩
      d = true := by
    intro hm
    by_cases hdel : d ∈ (compactPass ccc cloud).2.1
    · rcases compactPass_del_covered cloud ccc d hdel with ⟨k, hk, hle⟩
      exact dotIn_of_ccc (c := ⟨_, _⟩) hk hle
    · refine dotIn_of_cloud (c := ⟨_, _⟩) ?_
      rw [memB_iff]
      have hmb : memB (compactPass ccc cloud).2.1 d = false := by
        cases hmb2 : memB (compactPass ccc cloud).2.1 d
        · rfl
        · exact absurd (memB_iff.mp hmb2) hdel
      exact List.mem_filter.mpr ⟨memB_iff.mp hm, by simp [hmb]⟩
  unfold DotContext.dotIn at h
  cases hg : alGet ccc d.id with
  | none =>
    simp only [hg] at h
    exact hcloud h
  | some k =>
    simp only [hg] at h
    by_cases hc : d.counter ≤ k
    · rcases compactPass_ccc_mono cloud ccc d.id k hg with ⟨k2, hk2, hle⟩
      exact dotIn_of_ccc (c := ⟨_, _⟩) hk2 (le_trans hc hle)
    · rw [if_neg hc] at h
      exact hcloud h

theorem compactGo_dotIn_mono :
    ∀ (fuel : Nat) (ccc : List (String × Nat)) (cloud : List Dot) (d : Dot),
      DotContext.dotIn ⟨ccc, cloud⟩ d = true →
      DotContext.dotIn
        ⟨(compactGo ccc cloud fuel).1, (compactGo ccc cloud fuel).2⟩
        d = true := by
  intro fuel
  induction fuel with
  | zero => intro ccc cloud d h; exact h
  | succ fuel ih =>
    intro ccc cloud d h
    by_cases hfl : (compactPass ccc cloud).2.2 = true
    · simp only [compactGo, hfl, if_pos]
      exact ih _ _ d (dotIn_step_mono h)
    · simp only [compactGo, hfl, Bool.false_eq_true, if_neg]
      exact dotIn_step_mono h

theorem compact_dotIn_mono {c : DotContext} {d : Dot}
    (h : c.dotIn d = true) : c.compact.dotIn d = true := by
  cases c with
  | mk ccc cloud => exact compactGo_dotIn_mono (cloud.length + 1) ccc cloud d h

theorem compactGo_fix :
    ∀ (fuel : Nat) (ccc : List (String × Nat)) (cloud : List Dot),
      cloud.length < fuel → (∀ d ∈ cloud, 1 ≤ d.counter) →
      ∀ d ∈ (compactGo ccc cloud fuel).2,
        (alGet (compactGo ccc cloud fuel).1 d.id).getD 0 + 1 < d.counter := by
  intro fuel
  induction fuel with
  | zero => intro ccc cloud hlen; omega
  | succ fuel ih =>
    intro ccc cloud hlen hcnt
    by_cases hfl : (compactPass ccc cloud).2.2 = true
    · simp only [compactGo, hfl, if_pos]
      have hshrink := compactPass_shrink cloud ccc hfl
      refine ih _ _ (by omega) ?_
      intro d hd
      exact hcnt d (List.mem_filter.mp hd).1
    · simp only [compactGo]
      rw [if_neg hfl]
      intro d hd
      have hnp := compactPass_noprogress cloud ccc
        (Bool.not_eq_true _ ▸ hfl)
      rcases hnp with ⟨hc, hrest⟩
      have hmem := List.mem_filter.mp hd
      have hnd : d ∉ (compactPass ccc cloud).2.1 := by
        intro hcon
        have := hmem.2
        simp [memB_iff.mpr hcon] at this
      have hch := hrest d hmem.1 hnd
      rw [hc]
      have h1 := hcnt d hmem.1
      cases hg : alGet ccc d.id with
      | none =>
        simp only [hg] at hch
        simp only [Option.getD_none]
        omega
      | some k =>
        simp only [hg] at hch
        simpa using hch

theorem cccJoinStep_mono (acc : List (String × Nat)) (p : String × Nat) :
    cccLE acc
      (match alGet acc p.1 with
       | none => alSet acc p.1 p.2
       | some cur => alSet acc p.1 (max cur p.2)) := by
  cases hg : alGet acc p.1 with
  | none => exact cccLE_alSet_none p.2 hg
  | some cur => exact cccLE_alSet_ge (max cur p.2) hg (le_max_left cur p.2)

theorem cccJoinFold_mono :
    ∀ (entries : List (String × Nat)) (acc : List (String × Nat)),
      cccLE acc
        (entries.foldl
          (fun acc p =>
            match alGet acc p.1 with
            | none => alSet acc p.1 p.2
            | some cur => alSet acc p.1 (max cur p.2))
          acc) := by
  intro entries
  induction entries with
  | nil => intro acc; exact cccLE_refl acc
  | cons p rest ih =>
    intro acc
    exact cccLE_trans (cccJoinStep_mono acc p) (ih _)

theorem cccJoinFold_entry :
    ∀ (entries : List (String × Nat)) (acc : List (String × Nat)),
      ∀ p ∈ entries,
        ∃ k, alGet
          (entries.foldl
            (fun acc p =>
              match alGet acc p.1 with
              | none => alSet acc p.1 p.2
              | some cur => alSet acc p.1 (max cur p.2))
            acc) p.1 = some k ∧ p.2 ≤ k := by
  intro entries
  induction entries with
  | nil => intro acc p hp; exact absurd hp (by simp)
  | cons q rest ih =>
    intro acc p hp
    rcases List.mem_cons.mp hp with rfl | hp
    · have hstep : ∃ k0,
          alGet
            (match alGet acc p.1 with
             | none => alSet acc p.1 p.2
             | some cur => alSet acc p.1 (max cur p.2)) p.1 = some k0 ∧
          p.2 ≤ k0 := by
        cases hg : alGet acc p.1 with
        | none => exact ⟨p.2, alGet_alSet_self acc p.1 p.2, le_refl _⟩
        | some cur =>
          exact ⟨max cur p.2, alGet_alSet_self acc p.1 _,
            le_max_right cur p.2⟩
      rcases hstep with ⟨k0, hk0, hle0⟩
      rcases cccJoinFold_mono rest _ p.1 k0 hk0 with ⟨k1, hk1, hle1⟩
      exact ⟨k1, by simpa using hk1, le_trans hle0 hle1⟩
    · exact ih _ p hp

theorem cloudFold_mem :
    ∀ (entries : List Dot) (acc : List Dot) (d : Dot),
      d ∈ acc ∨ d ∈ entries → d ∈ entries.foldl setAdd acc := by
  intro entries
  induction entries with
  | nil =>
    intro acc d h
    rcases h with h | h
    · exact h
    · exact absurd h (by simp)
  | cons e rest ih =>
    intro acc d h
    simp only [List.foldl_cons]
    rcases h with h | h
    · exact ih _ d (Or.inl (mem_setAdd.mpr (Or.inl h)))
    · rcases List.mem_cons.mp h with rfl | h
      · exact ih _ d (Or.inl (mem_setAdd.mpr (Or.inr rfl)))
      · exact ih _ d (Or.inr h)

theorem ctxJoin_dotIn_left {a b : DotContext} {d : Dot}
    (h : a.dotIn d = true) : (a.join b).dotIn d = true := by
  unfold DotContext.join
  refine compact_dotIn_mono ?_
  unfold DotContext.dotIn at h
  cases hg : alGet a.compactCausalContext d.id with
  | none =>
    simp only [hg] at h
    exact dotIn_of_cloud (c := ⟨_, _⟩)
      (memB_iff.mpr (cloudFold_mem _ _ d (Or.inl (memB_iff.mp h))))
  | some k =>
    simp only [hg] at h
    by_cases hc : d.counter ≤ k
    · rcases cccJoinFold_mono b.compactCausalContext a.compactCausalContext
        d.id k hg with ⟨k2, hk2, hle⟩
      exact dotIn_of_ccc (c := ⟨_, _⟩) hk2 (le_trans hc hle)
    · rw [if_neg hc] at h
      exact dotIn_of_cloud (c := ⟨_, _⟩)
        (memB_iff.mpr (cloudFold_mem _ _ d (Or.inl (memB_iff.mp h))))

theorem ctxJoin_dotIn_right {a b : DotContext} {d : Dot}
    (h : b.dotIn d = true) : (a.join b).dotIn d = true := by
  unfold DotContext.join
  refine compact_dotIn_mono ?_
  unfold DotContext.dotIn at h
  cases hg : alGet b.compactCausalContext d.id with
  | none =>
    simp only [hg] at h
    exact dotIn_of_cloud (c := ⟨_, _⟩)
      (memB_iff.mpr (cloudFold_mem _ _ d (Or.inr (memB_iff.mp h))))
  | some k =>
    simp only [hg] at h
    by_cases hc : d.counter ≤ k
    · rcases cccJoinFold_entry b.compactCausalContext
        a.compactCausalContext (d.id, k) (alGet_mem hg) with ⟨k2, hk2, hle⟩
      exact dotIn_of_ccc (c := ⟨_, _⟩) hk2 (le_trans hc hle)
    · rw [if_neg hc] at h
      exact dotIn_of_cloud (c := ⟨_, _⟩)
        (memB_iff.mpr (cloudFold_mem _ _ d (Or.inr (memB_iff.mp h))))

theorem makeDot_fst (c : DotContext) (id : String) :
    (c.makeDot id).1 =
      ⟨alSet c.compactCausalContext id
        ((alGet c.compactCausalContext id).getD 0 + 1), c.dotCloud⟩ := rfl

theorem makeDot_snd (c : DotContext) (id : String) :
    (c.makeDot id).2 = ⟨id, (alGet c.compactCausalContext id).getD 0 + 1⟩ :=
  rfl

theorem makeDot_dotIn_mono {c : DotContext} {id : String} {d : Dot}
    (h : c.dotIn d = true) : (c.makeDot id).1.dotIn d = true := by
  rw [makeDot_fst]
  by_cases he : d.id = id
  · subst he
    unfold DotContext.dotIn at h
    cases hg : alGet c.compactCausalContext d.id with
    | none =>
      simp only [hg] at h
      exact dotIn_of_cloud (c := ⟨_, _⟩) h
    | some k0 =>
      simp only [hg] at h
      by_cases hc : d.counter ≤ k0
      · refine dotIn_of_ccc
          (c := ⟨alSet c.compactCausalContext d.id
            ((some k0).getD 0 + 1), c.dotCloud⟩)
          (alGet_alSet_self _ _ _) ?_
        simpa using Nat.le_succ_of_le hc
      · rw [if_neg hc] at h
        exact dotIn_of_cloud (c := ⟨_, _⟩) h
  · unfold DotContext.dotIn at h ⊢
    rw [alGet_alSet_ne _ _ _ _ he]
    exact h

theorem makeDot_result_dotIn (c : DotContext) (id : String) :
    (c.makeDot id).1.dotIn (c.makeDot id).2 = true := by
  rw [makeDot_fst, makeDot_snd]
  exact dotIn_of_ccc (c := ⟨_, _⟩) (alGet_alSet_self _ _ _) (le_refl _)

theorem keysP_delStep (KP : Dot → Prop) (bctx : DotContext)
    (s : List (Dot × V)) (t : Dot) (hs : ∀ d ∈ alKeys s, KP d) :
    ∀ d ∈ alKeys (if bctx.dotIn t then alDelete s t else s), KP d := by
  by_cases hio : bctx.dotIn t = true
  · rw [if_pos hio]
    exact fun d hd => hs d (alKeys_alDelete_subset hd)
  · rw [if_neg hio]
    exact hs

theorem keysP_impStep (KP : Dot → Prop) (actx : DotContext)
    (bstore s : List (Dot × V)) (o : Dot)
    (hs : ∀ d ∈ alKeys s, KP d) (ho : KP o) :
    ∀ d ∈ alKeys
      (if actx.dotIn o then s else
        match alGet bstore o with
        | some v => alSet s o v
        | none => s), KP d := by
  by_cases hio : actx.dotIn o = true
  · rw [if_pos hio]
    exact hs
  · rw [if_neg hio]
    cases hb : alGet bstore o with
    | none => exact hs
    | some v =>
      intro d hd
      rcases alKeys_alSet hd with hd | rfl
      · exact hs d hd
      · exact ho

theorem joinWalk_keys (KP : Dot → Prop) (actx bctx : DotContext)
    (bstore : List (Dot × V)) :
    ∀ (fuel : Nat) (l1 l2 : List Dot) (s : List (Dot × V)),
      (∀ d ∈ alKeys s, KP d) → (∀ d ∈ l2, KP d) →
      ∀ d ∈ alKeys (joinWalk actx bctx bstore fuel l1 l2 s), KP d := by
  intro fuel
  induction fuel with
  | zero =>
    intro l1 l2 s hs _ d hd
    exact hs d (by simpa [joinWalk] using hd)
  | succ fuel ih =>
    intro l1 l2 s hs h2
    cases l1 with
    | nil =>
      cases l2 with
      | nil => simpa [joinWalk] using hs
      | cons o os =>
        simp only [joinWalk]
        exact ih [] os _
          (keysP_impStep KP actx bstore s o hs (h2 o (List.mem_cons_self o os)))
          (fun d hd => h2 d (List.mem_cons_of_mem o hd))
    | cons t ts =>
      cases l2 with
      | nil =>
        simp only [joinWalk]
        exact ih ts [] _ (keysP_delStep KP bctx s t hs) h2
      | cons o os =>
        simp only [joinWalk]
        by_cases hlt : dotStrLt t o = true
        · rw [if_pos hlt]
          exact ih ts (o :: os) _ (keysP_delStep KP bctx s t hs) h2
        · rw [if_neg hlt]
          by_cases hlt2 : dotCmpLt o t = true
          · rw [if_pos hlt2]
            exact ih (t :: ts) os _
              (keysP_impStep KP actx bstore s o hs
                (h2 o (List.mem_cons_self o os)))
              (fun d hd => h2 d (List.mem_cons_of_mem o hd))
          · rw [if_neg hlt2]
            exact ih ts os s hs (fun d hd => h2 d (List.mem_cons_of_mem o hd))

theorem keysP_deepStep (KP : Dot → Prop) (veq : V → V → Bool)
    (pjoin : V → V → V) (bstore s : List (Dot × V)) (t o : Dot)
    (hs : ∀ d ∈ alKeys s, KP d) (ht : KP t) :
    ∀ d ∈ alKeys
      (match alGet s t, alGet bstore o with
       | some tv, some ov => if veq tv ov then s else alSet s t (pjoin tv ov)
       | _, _ => s), KP d := by
  cases ha : alGet s t with
  | none => exact hs
  | some tv =>
    cases hb : alGet bstore o with
    | none => exact hs
    | some ov =>
      rw [show (match some tv, some ov with
            | some tv, some ov =>
              if veq tv ov = true then s else alSet s t (pjoin tv ov)
            | _, _ => s) =
          if veq tv ov = true then s else alSet s t (pjoin tv ov) from rfl]
      by_cases hv : veq tv ov = true
      · rw [if_pos hv]
        exact hs
      · rw [if_neg hv]
        intro d hd
        rcases alKeys_alSet hd with hd | rfl
        · exact hs d hd
        · exact ht

theorem deepWalk_keys (KP : Dot → Prop) (veq : V → V → Bool)
    (pjoin : V → V → V) (actx bctx : DotContext)
    (bstore : List (Dot × V)) :
    ∀ (fuel : Nat) (l1 l2 : List Dot) (s : List (Dot × V)),
      (∀ d ∈ alKeys s, KP d) → (∀ d ∈ l1, KP d) → (∀ d ∈ l2, KP d) →
      ∀ d ∈ alKeys (deepWalk veq pjoin actx bctx bstore fuel l1 l2 s),
        KP d := by
  intro fuel
  induction fuel with
  | zero =>
    intro l1 l2 s hs _ _ d hd
    exact hs d (by simpa [deepWalk] using hd)
  | succ fuel ih =>
    intro l1 l2 s hs h1 h2
    cases l1 with
    | nil =>
      cases l2 with
      | nil => simpa [deepWalk] using hs
      | cons o os =>
        simp only [deepWalk]
        exact ih [] os _
          (keysP_impStep KP actx bstore s o hs (h2 o (List.mem_cons_self o os)))
          h1 (fun d hd => h2 d (List.mem_cons_of_mem o hd))
    | cons t ts =>
      cases l2 with
      | nil =>
        simp only [deepWalk]
        exact ih ts [] _ (keysP_delStep KP bctx s t hs)
          (fun d hd => h1 d (List.mem_cons_of_mem t hd)) h2
      | cons o os =>
        simp only [deepWalk]
        by_cases hlt : dotStrLt t o = true
        · rw [if_pos hlt]
          exact ih ts (o :: os) _ (keysP_delStep KP bctx s t hs)
            (fun d hd => h1 d (List.mem_cons_of_mem t hd)) h2
        · rw [if_neg hlt]
          by_cases hlt2 : dotStrLt o t = true
          · rw [if_pos hlt2]
            exact ih (t :: ts) os _
              (keysP_impStep KP actx bstore s o hs
                (h2 o (List.mem_cons_self o os)))
              h1 (fun d hd => h2 d (List.mem_cons_of_mem o hd))
          · rw [if_neg hlt2]
            exact ih ts os _
              (keysP_deepStep KP veq pjoin bstore s t o hs
                (h1 t (List.mem_cons_self t ts)))
              (fun d hd => h1 d (List.mem_cons_of_mem t hd))
              (fun d hd => h2 d (List.mem_cons_of_mem o hd))

theorem anchoredB_iff {k : DotKernel V} :
    anchoredB k = true ↔
      ∀ d ∈ alKeys k.dataStorage, k.sharedContext.dotIn d = true := by
  simp [anchoredB, List.all_eq_true]

theorem add_fst (k : DotKernel V) (id : String) (v : V) :
    (k.add id v).1 =
      ⟨alSet k.dataStorage (k.sharedContext.makeDot id).2 v,
       (k.sharedContext.makeDot id).1⟩ := rfl

theorem dotAdd_fst (k : DotKernel V) (id : String) (v : V) :
    (k.dotAdd id v).1 = (k.add id v).1 := rfl

theorem join_eq (k o : DotKernel V) :
    k.join o =
      ⟨joinWalk k.sharedContext o.sharedContext o.dataStorage
        ((sortByB dotCmpLe (alKeys k.dataStorage)).length +
          (sortByB dotCmpLe (alKeys o.dataStorage)).length)
        (sortByB dotCmpLe (alKeys k.dataStorage))
        (sortByB dotCmpLe (alKeys o.dataStorage)) k.dataStorage,
       k.sharedContext.join o.sharedContext⟩ := rfl

theorem deepJoin_eq (veq : V → V → Bool) (pjoin : V → V → V)
    (k o : DotKernel V) :
    DotKernel.deepJoin veq pjoin k o =
      ⟨deepWalk veq pjoin k.sharedContext o.sharedContext o.dataStorage
        ((sortByB dotCmpLe (alKeys k.dataStorage)).length +
          (sortByB dotCmpLe (alKeys o.dataStorage)).length)
        (sortByB dotCmpLe (alKeys k.dataStorage))
        (sortByB dotCmpLe (alKeys o.dataStorage)) k.dataStorage,
       k.sharedContext.join o.sharedContext⟩ := rfl

theorem clone_dotIn (c : DotContext) (d : Dot) :
    c.clone.dotIn d = c.dotIn d := by
  cases c
  rfl

theorem anchored_add {k : DotKernel V} {id : String} {v : V}
    (h : anchoredB k = true) : anchoredB (k.add id v).1 = true := by
  rw [add_fst, anchoredB_iff]
  intro d hd
  rcases alKeys_alSet hd with hd | rfl
  · exact makeDot_dotIn_mono (anchoredB_iff.mp h d hd)
  · exact makeDot_result_dotIn _ _

theorem anchored_rmvAll {k : DotKernel V}
    : anchoredB k.rmvAll.1 = true := by
  rw [anchoredB_iff]
  intro d hd
  exact absurd hd (by simp [DotKernel.rmvAll, alKeys])

theorem anchored_rmvDot {k : DotKernel V} {sel : Option Dot}
    (h : anchoredB k = true) : anchoredB (k.rmvDot sel).1 = true := by
  cases sel with
  | none => exact h
  | some d0 =>
    by_cases hm : memB (alKeys k.dataStorage) d0 = true
    · have he : (k.rmvDot (some d0)).1 =
          ⟨alDelete k.dataStorage d0, k.sharedContext⟩ := by
        simp [DotKernel.rmvDot, hm]
      rw [he, anchoredB_iff]
      intro d hd
      exact anchoredB_iff.mp h d (alKeys_alDelete_subset hd)
    · have he : (k.rmvDot (some d0)).1 = k := by
        simp [DotKernel.rmvDot, hm]
      rw [he]
      exact h

theorem anchored_rmvVal {veq : V → V → Bool} {k : DotKernel V} {v : V}
    (h : anchoredB k = true) :
    anchoredB (DotKernel.rmvVal veq k v).1 = true := by
  rw [anchoredB_iff]
  intro d hd
  rcases mem_alKeys.mp hd with ⟨w, hw⟩
  exact anchoredB_iff.mp h d
    (mem_alKeys.mpr ⟨w, (List.mem_filter.mp hw).1⟩)

theorem anchored_join {k o : DotKernel V}
    (hk : anchoredB k = true) (ho : anchoredB o = true) :
    anchoredB (k.join o) = true := by
  rw [join_eq, anchoredB_iff]
  refine joinWalk_keys
    (fun d => (k.sharedContext.join o.sharedContext).dotIn d = true)
    k.sharedContext o.sharedContext o.dataStorage _ _ _ _ ?_ ?_
  · intro d hd
    exact ctxJoin_dotIn_left (anchoredB_iff.mp hk d hd)
  · intro d hd
    exact ctxJoin_dotIn_right
      (anchoredB_iff.mp ho d (mem_sortByB.mp hd))

theorem anchored_deepJoin {veq : V → V → Bool} {pjoin : V → V → V}
    {k o : DotKernel V}
    (hk : anchoredB k = true) (ho : anchoredB o = true) :
    anchoredB (DotKernel.deepJoin veq pjoin k o) = true := by
  rw [deepJoin_eq, anchoredB_iff]
  refine deepWalk_keys
    (fun d => (k.sharedContext.join o.sharedContext).dotIn d = true)
    veq pjoin k.sharedContext o.sharedContext o.dataStorage _ _ _ _
    ?_ ?_ ?_
  · intro d hd
    exact ctxJoin_dotIn_left (anchoredB_iff.mp hk d hd)
  · intro d hd
    exact ctxJoin_dotIn_left
      (anchoredB_iff.mp hk d (mem_sortByB.mp hd))
  · intro d hd
    exact ctxJoin_dotIn_right
      (anchoredB_iff.mp ho d (mem_sortByB.mp hd))

theorem anchored_clone {k : DotKernel V}
    (h : anchoredB k = true) : anchoredB k.clone = true := by
  rw [anchoredB_iff]
  intro d hd
  rw [DotKernel.clone] at hd ⊢
  rw [clone_dotIn]
  exact anchoredB_iff.mp h d hd

theorem anchored_applyOp {veq : V → V → Bool} {pjoin : V → V → V}
    {k : DotKernel V} {op : KOp V}
    (h : anchoredB k = true) (hwf : opWFB op = true) :
    anchoredB (applyOp veq pjoin k op) = true := by
  cases op with
  | add id v => exact anchored_add h
  | dotAdd id v => rw [applyOp, dotAdd_fst]; exact anchored_add h
  | rmvAll => exact anchored_rmvAll
  | rmvDot sel => exact anchored_rmvDot h
  | rmvVal v => exact anchored_rmvVal h
  | join o => exact anchored_join h hwf
  | deepJoin o => exact anchored_deepJoin h hwf
  | clone => exact anchored_clone h

theorem anchored_applyOps {veq : V → V → Bool} {pjoin : V → V → V} :
    ∀ (ops : List (KOp V)) (k : DotKernel V),
      anchoredB k = true → (∀ op ∈ ops, opWFB op = true) →
      anchoredB (applyOps veq pjoin k ops) = true := by
  intro ops
  induction ops with
  | nil => intro k h _; exact h
  | cons op rest ih =>
    intro k h hwf
    exact ih _
      (anchored_applyOp h (hwf op (List.mem_cons_self op rest)))
      (fun op' hop' => hwf op' (List.mem_cons_of_mem op hop'))

/-- C1: the observed-remove merge rule fails on the code.  At the concrete
well-formed input where kernel kcA holds dot a:2 (context exactly a:2) and
kernel kcB holds dot a:10 (context exactly a:10), the dot a:10 is present
in B's storage, absent from A's storage, and not a member of A's context,
so the claimed rule requires it to be imported by A.join(B) with B's value;
the implemented join (whose merge compares dot strings with the plain JS
string operator in one branch but sorts and compares with Dot.compare in
the other) classifies a:2 and a:10 as the same dot and imports nothing. -/
theorem c1_join_drops_unseen_dot_eval :
    alGet kcB.dataStorage ⟨"a", 10⟩ = some "y" ∧
    alGet kcA.dataStorage ⟨"a", 10⟩ = none ∧
    kcA.sharedContext.dotIn ⟨"a", 10⟩ = false ∧
    alGet (kcA.join kcB).dataStorage ⟨"a", 10⟩ = none := by decide

/-- C2: kernel join is not commutative on the code.  Joining a clone of kcA
with kcB leaves the dot a:10 out of the storage, while joining a clone of
kcB with kcA keeps it with value y, so the two directions disagree on the
dataStorage contents at this well-formed anchored input. -/
theorem c2_join_not_commutative_eval :
    alGet ((DotKernel.clone kcA).join kcB).dataStorage ⟨"a", 10⟩ = none ∧
    alGet ((DotKernel.clone kcB).join kcA).dataStorage ⟨"a", 10⟩ =
      some "y" := by decide

/-- C3 counterexample: on the context reached through the public API by
inserting the out-of-order dot a:2 into an empty context and then calling
makeDot once for a, a second makeDot for a returns the dot a:2 even though
that dot already satisfied dotIn = true immediately before the call,
contradicting the claimed unconditional freshness guarantee. -/
theorem c3_makedot_stale_counterexample :
    (ctxC3'.makeDot "a").2 = ⟨"a", 2⟩ ∧ ctxC3'.dotIn ⟨"a", 2⟩ = true := by
  decide

/-- C3 amended: makeDot freshness holds for every context whose dot cloud
does not contain the dot (id, CCC(id) + 1), with CCC(id) read as 0 when the
compact causal context has no entry for the id; in particular it holds for
every compact context and for every id with no out-of-order dot waiting in
the cloud. -/
theorem c3_makedot_fresh_amended (c : DotContext) (id : String)
    (h : memB c.dotCloud
      ⟨id, (alGet c.compactCausalContext id).getD 0 + 1⟩ = false) :
    c.dotIn (c.makeDot id).2 = false := by
  rw [makeDot_snd]
  unfold DotContext.dotIn
  cases hg : alGet c.compactCausalContext id with
  | none =>
    rw [hg] at h
    simp only [hg]
    simpa using h
  | some k0 =>
    rw [hg] at h
    simp only [hg]
    rw [if_neg (by simp)]
    simpa using h

/-- C3 witness: on the empty context, makeDot for replica a returns a dot
that was not a member beforehand. -/
theorem c3_makedot_fresh_witness :
    emptyCtx.dotIn (emptyCtx.makeDot "a").2 = false :=
  c3_makedot_fresh_amended emptyCtx "a" (by decide)

/-- C5: compaction postcondition.  For every context whose dot-cloud
entries all have counter at least 1, every dot remaining in the cloud after
compact has a counter strictly greater than the compact-causal-context
entry of its id plus 1 (the entry read as 0 when absent): remaining dots
are strictly non-contiguous and not dominated. -/
theorem c5_compact_postcondition (c : DotContext)
    (h : ∀ d ∈ c.dotCloud, 1 ≤ d.counter) :
    ∀ d ∈ c.compact.dotCloud,
      (alGet c.compact.compactCausalContext d.id).getD 0 + 1 < d.counter := by
  cases c with
  | mk ccc cloud =>
    exact compactGo_fix (cloud.length + 1) ccc cloud (by omega) h

/-- C5 witness: compacting the context with cloud a:3, b:1 absorbs b:1 and
leaves a:3, which is strictly beyond its (absent) compact entry plus 1. -/
theorem c5_compact_postcondition_witness :
    (∀ d ∈ (⟨[], [⟨"a", 3⟩, ⟨"b", 1⟩]⟩ : DotContext).dotCloud,
      1 ≤ d.counter) ∧
    ∀ d ∈ (DotContext.compact ⟨[], [⟨"a", 3⟩, ⟨"b", 1⟩]⟩).dotCloud,
      (alGet (DotContext.compact
        ⟨[], [⟨"a", 3⟩, ⟨"b", 1⟩]⟩).compactCausalContext d.id).getD 0 + 1 <
        d.counter :=
  ⟨by decide, c5_compact_postcondition ⟨[], [⟨"a", 3⟩, ⟨"b", 1⟩]⟩
    (by decide)⟩

/-- C4: kernel anchoring invariant.  Starting from the empty kernel, every
sequence of public operations (add, dotAdd, the three rmv modes, join,
deepJoin, clone) whose join and deepJoin arguments are themselves anchored
kernels leaves the kernel with every dataStorage key a member of its
shared context. -/
theorem c4_kernel_anchoring {V : Type} [DecidableEq V]
    (veq : V → V → Bool) (pjoin : V → V → V) (ops : List (KOp V))
    (h : ∀ op ∈ ops, opWFB op = true) :
    anchoredB (applyOps veq pjoin (emptyKernel V) ops) = true :=
  anchored_applyOps ops (emptyKernel V) rfl h

/-- C4 witness: a concrete operation sequence exercising add, join with an
anchored kernel, removal modes, deepJoin, and clone keeps the kernel
anchored. -/
theorem c4_kernel_anchoring_witness :
    (∀ op ∈ ([KOp.add "a" 1, KOp.dotAdd "a" 2,
        KOp.join ⟨[(⟨"b", 1⟩, 5)], ⟨[("b", 1)], []⟩⟩,
        KOp.rmvDot (some ⟨"a", 1⟩), KOp.rmvVal 5,
        KOp.deepJoin ⟨[(⟨"c", 2⟩, 7)], ⟨[], [⟨"c", 2⟩]⟩⟩,
        KOp.clone, KOp.rmvAll, KOp.add "d" 9] : List (KOp Nat)),
      opWFB op = true) ∧
    anchoredB (applyOps (fun a b => a == b) (fun a b => max a b)
      (emptyKernel Nat)
      [KOp.add "a" 1, KOp.dotAdd "a" 2,
       KOp.join ⟨[(⟨"b", 1⟩, 5)], ⟨[("b", 1)], []⟩⟩,
       KOp.rmvDot (some ⟨"a", 1⟩), KOp.rmvVal 5,
       KOp.deepJoin ⟨[(⟨"c", 2⟩, 7)], ⟨[], [⟨"c", 2⟩]⟩⟩,
       KOp.clone, KOp.rmvAll, KOp.add "d" 9]) = true :=
  ⟨by decide, c4_kernel_anchoring (fun a b => a == b) (fun a b => max a b)
    _ (by decide)⟩

/-- C6: MVReg local write yields a singleton.  For every register in any
prior state, the register state immediately after write(v) reads as exactly
the one-element value set containing v: write clears every stored dot
before adding the fresh dot carrying v. -/
theorem c6_mvreg_write_singleton {V : Type} [DecidableEq V]
    (r : MVReg V) (v : V) : (r.write v).1.read = [v] := by
  simp [MVReg.write, MVReg.read, DotKernel.rmvAll, DotKernel.add, alSet,
    setAdd, memB]

theorem isDigit_ne_of {c : Char} (h : c.isDigit = true)
    (c0 : Char) (h0 : c0.isDigit = false) : ¬ c = c0 :=
  fun he => absurd (he ▸ h) (by simp [h0])

theorem isDigit_not_space {c : Char} (h : c.isDigit = true) :
    isJsSpace c = false := by
  have h1 := isDigit_ne_of h ' ' (by decide)
  have h2 := isDigit_ne_of h '\t' (by decide)
  have h3 := isDigit_ne_of h '\n' (by decide)
  have h4 := isDigit_ne_of h '\r' (by decide)
  simp [isJsSpace, h1, h2, h3, h4]

theorem jsParseInt_digits {l : List Char} (hne : l.isEmpty = false)
    (hd : l.all Char.isDigit = true) : (jsParseInt l).isSome = true := by
  cases l with
  | nil => simp at hne
  | cons c cs =>
    simp only [List.all_cons, Bool.and_eq_true] at hd
    have hc : c.isDigit = true := hd.1
    have hdw : (c :: cs).dropWhile isJsSpace = c :: cs := by
      rw [List.dropWhile_cons, isDigit_not_space hc]
      simp
    have hsign : ¬ (c = '+' ∨ c = '-') := by
      rintro (he | he)
      · exact isDigit_ne_of hc '+' (by decide) he
      · exact isDigit_ne_of hc '-' (by decide) he
    simp only [jsParseInt]
    rw [hdw]
    cases cs with
    | nil =>
      simp [hsign, List.takeWhile_cons, hc]
    | cons c1 cs2 =>
      have hc1 : c1.isDigit = true := by
        have h2 := hd.2
        simp only [List.all_cons, Bool.and_eq_true] at h2
        exact h2.1
      have hx : ¬ c1 = 'x' := isDigit_ne_of hc1 'x' (by decide)
      have hX : ¬ c1 = 'X' := isDigit_ne_of hc1 'X' (by decide)
      simp [hsign, hx, hX, List.takeWhile_cons, hc]

theorem dotFromString_isOk (s : String) :
    (dotFromString s).isOk = jsDotAccepts s := by
  unfold dotFromString jsDotAccepts
  cases hsp : splitColonChars s.toList with
  | nil => rfl
  | cons idc t =>
    cases t with
    | nil => rfl
    | cons csc t2 =>
      cases t2 with
      | cons x t3 => rfl
      | nil =>
        cases hpi : jsParseInt csc with
        | none => simp [hpi, Except.isOk, Except.toBool]
        | some n =>
          cases hie : idc.isEmpty with
          | true => simp [hpi, hie, Except.isOk, Except.toBool]
          | false => simp [hpi, hie, Except.isOk, Except.toBool]

/-- C7 counterexample: the string a:12abc is not of the spec form
id:integer (its counter part is not all digits), yet Dot.fromString
accepts it, because parseInt reads the longest digit prefix 12 and ignores
the rest; the claimed raises-iff equivalence fails. -/
theorem c7_parse_nonform_accepted_counterexample :
    specDotForm "a:12abc" = false ∧ (dotFromString "a:12abc").isOk = true := by
  decide

/-- C7 amended: the parser accepts every string of the spec form
id:digits; in general it raises exactly when the string does not split on
the colon into two parts, or the id part is empty, or parseInt finds no
integer in the counter part — so it also accepts counter parts that merely
begin with a parseable integer (optionally signed, space-prefixed, or
0x-prefixed hexadecimal). -/
theorem c7_parse_raises_iff_amended (s : String) :
    (specDotForm s = true → (dotFromString s).isOk = true) ∧
    (dotFromString s).isOk = jsDotAccepts s := by
  refine ⟨?_, dotFromString_isOk s⟩
  intro hs
  rw [dotFromString_isOk s]
  unfold specDotForm at hs
  unfold jsDotAccepts
  cases hsp : splitColonChars s.toList with
  | nil => rw [hsp] at hs; exact absurd hs (by simp)
  | cons idc t =>
    cases t with
    | nil => rw [hsp] at hs; exact absurd hs (by simp)
    | cons csc t2 =>
      cases t2 with
      | cons x t3 => rw [hsp] at hs; exact absurd hs (by simp)
      | nil =>
        rw [hsp] at hs
        simp only [Bool.and_eq_true] at hs
        simp [hs.1.1, jsParseInt_digits (by simpa using hs.1.2) hs.2]

/-- C7 witness: the spec-form string a:7 is accepted by the parser. -/
theorem c7_parse_raises_iff_witness : (dotFromString "a:7").isOk = true :=
  (c7_parse_raises_iff_amended "a:7").1 (by decide)

/-- C8: delta-helpers join dispatch.  Two numbers join to their maximum; a
value exposing a join method yields a copy of the same shape on which the
method has been invoked with the right argument, never raising; and the
call raises exactly when the operands are neither both numbers nor headed
by a join-capable value. -/
theorem c8_delta_helpers_join_dispatch {V : Type} (f : V → DVal V → V)
    (a b : DVal V) :
    (∀ n m, a = .num n → b = .num m →
      deltaJoin f a b = .ok (.num (max n m))) ∧
    (∀ s, a = .joinObj s → deltaJoin f a b = .ok (.joinObj (f s b))) ∧
    ((deltaJoin f a b).isOk = false ↔
      (∀ n m, ¬(a = .num n ∧ b = .num m)) ∧ (∀ s, a ≠ .joinObj s)) := by
  cases a <;> cases b <;>
    simp [deltaJoin, DVal.truthy, DVal.hasJoinMethod, Except.isOk,
      Except.toBool]

/-- C8 witness: joining the numbers 3 and 5 returns their maximum. -/
theorem c8_delta_helpers_join_dispatch_witness :
    deltaJoin (fun (s : Unit) _ => s) (DVal.num 3) (DVal.num 5) =
      .ok (.num (max 3 5)) :=
  (c8_delta_helpers_join_dispatch (fun (s : Unit) _ => s)
    (DVal.num 3) (DVal.num 5)).1 3 5 rfl rfl

/-- C9: join does not modify its argument.  In the frame-aware model of
A.join(B) and A.deepJoin(B) on two distinct kernels — where the context
objects may be one shared object (aliased, in which case the trailing
context self-join short-circuits) or two distinct objects (in which case
only the receiver's context object is mutated) — the argument kernel B is
returned unchanged in storage and context. -/
theorem c9_join_frame {V : Type} (veq : V → V → Bool) (pjoin : V → V → V)
    (a b : DotKernel V) (aliased : Bool)
    (h : aliased = true → a.sharedContext = b.sharedContext) :
    (kernelJoinH a b aliased).2 = b ∧
    (kernelDeepJoinH veq pjoin a b aliased).2 = b := by
  cases aliased with
  | false =>
    constructor
    · show (⟨b.dataStorage, b.sharedContext⟩ : DotKernel V) = b
      rfl
    · show (⟨b.dataStorage, b.sharedContext⟩ : DotKernel V) = b
      rfl
  | true =>
    have he := h rfl
    constructor
    · show (⟨b.dataStorage, a.sharedContext⟩ : DotKernel V) = b
      rw [he]
    · show (⟨b.dataStorage, a.sharedContext⟩ : DotKernel V) = b
      rw [he]

/-- C9 witness: joining two distinct kernels that share one context object
leaves the argument kernel unchanged, for both join and deepJoin. -/
theorem c9_join_frame_witness :
    (kernelJoinH (⟨[(⟨"a", 1⟩, 3)], ⟨[("a", 1)], []⟩⟩ : DotKernel Nat)
      ⟨[], ⟨[("a", 1)], []⟩⟩ true).2 = ⟨[], ⟨[("a", 1)], []⟩⟩ ∧
    (kernelDeepJoinH (fun a b => a == b) (fun a b => max a b)
      (⟨[(⟨"a", 1⟩, 3)], ⟨[("a", 1)], []⟩⟩ : DotKernel Nat)
      ⟨[], ⟨[("a", 1)], []⟩⟩ true).2 = ⟨[], ⟨[("a", 1)], []⟩⟩ :=
  c9_join_frame (fun a b => a == b) (fun a b => max a b)
    ⟨[(⟨"a", 1⟩, 3)], ⟨[("a", 1)], []⟩⟩ ⟨[], ⟨[("a", 1)], []⟩⟩ true
    (fun _ => rfl)

/-- C10: rmv selector dispatch.  Any non-null object selector with both an
id and a counter property defined is dispatched to dot-removal: the
resulting storage equals the original with at most the single storage key
denoted by the selector's rendered dot string deleted, and the
value-equality branch is never taken, regardless of payloads structurally
equal to the selector. -/
theorem c10_rmv_dotlike_dispatch (k : DotKernel JVal)
    (fs : List (String × JAtom))
    (hid : (JVal.field fs "id").isSome = true)
    (hcnt : (JVal.field fs "counter").isSome = true) :
    (k.rmvSel (some (JVal.obj fs))).1.dataStorage =
      (match jvalDotKey (JVal.obj fs) with
       | some d =>
         if memB (alKeys k.dataStorage) d then alDelete k.dataStorage d
         else k.dataStorage
       | none => k.dataStorage) := by
  have hdl : isDotLikeObject (JVal.obj fs) = true := by
    simp [isDotLikeObject, hid, hcnt]
  show (if isDotLikeObject (JVal.obj fs) then
          k.rmvDot (jvalDotKey (JVal.obj fs))
        else DotKernel.rmvVal jvalEq k (JVal.obj fs)).1.dataStorage = _
  rw [if_pos hdl]
  cases hk : jvalDotKey (JVal.obj fs) with
  | none => rfl
  | some d =>
    show (if memB (alKeys k.dataStorage) d then
        (⟨alDelete k.dataStorage d, k.sharedContext⟩,
         (⟨[], DotContext.compact ⟨[], [d]⟩⟩ : DotKernel JVal))
      else (k, ⟨[], DotContext.compact emptyCtx⟩)).1.dataStorage = _
    by_cases hm : memB (alKeys k.dataStorage) d = true
    · simp [hm]
    · simp [hm]

/-- C10 witness: a kernel holding, at dot a:1, a payload structurally equal
to the dot-like selector for b:2, and at dot b:2 a string payload; the
selector removes exactly the dot b:2 and leaves the structurally equal
payload at a:1 untouched. -/
theorem c10_rmv_dotlike_dispatch_witness :
    (DotKernel.rmvSel
      ⟨[(⟨"a", 1⟩, JVal.obj [("id", JAtom.str "b"), ("counter", JAtom.num 2)]),
        (⟨"b", 2⟩, JVal.str "x")], ⟨[("a", 1), ("b", 2)], []⟩⟩
      (some (JVal.obj [("id", JAtom.str "b"), ("counter", JAtom.num 2)]))
      ).1.dataStorage =
      (match jvalDotKey
        (JVal.obj [("id", JAtom.str "b"), ("counter", JAtom.num 2)]) with
       | some d =>
         if memB (alKeys
            ([(⟨"a", 1⟩, JVal.obj [("id", JAtom.str "b"),
                ("counter", JAtom.num 2)]),
              (⟨"b", 2⟩, JVal.str "x")] : List (Dot × JVal))) d then
           alDelete
            [(⟨"a", 1⟩, JVal.obj [("id", JAtom.str "b"),
                ("counter", JAtom.num 2)]),
              (⟨"b", 2⟩, JVal.str "x")] d
         else
           [(⟨"a", 1⟩, JVal.obj [("id", JAtom.str "b"),
               ("counter", JAtom.num 2)]),
             (⟨"b", 2⟩, JVal.str "x")]
       | none =>
         [(⟨"a", 1⟩, JVal.obj [("id", JAtom.str "b"),
             ("counter", JAtom.num 2)]),
           (⟨"b", 2⟩, JVal.str "x")]) :=
  c10_rmv_dotlike_dispatch
    ⟨[(⟨"a", 1⟩, JVal.obj [("id", JAtom.str "b"), ("counter", JAtom.num 2)]),
      (⟨"b", 2⟩, JVal.str "x")], ⟨[("a", 1), ("b", 2)], []⟩⟩
    [("id", JAtom.str "b"), ("counter", JAtom.num 2)] (by decide) (by decide)
